import Mathlib

/-!
Verification of the truba/laygo lazy pipeline library.

The library processes finite asynchronous sequences one item at a time.
Scheduling is single-threaded and cooperative, every source in scope is a
finite in-memory sequence, and every stage pulls lazily from its upstream,
so a stage denotes a function on the (finite) list of items its upstream
yields, and a sink denotes a function from that list to its result.  Where a
claim is about how often the upstream is pulled, the embedding additionally
threads an explicit pull counter (`take`) or a full shared-state machine
(the fork subsystem).

Machine integers: JavaScript `number` arguments that the code compares with
`===` against a buffer length (`take`'s `count`, `chunk`'s `size`) are
embedded as `Int`, so that zero and negative configurations behave exactly
as in the source (`buffer.length === size` is never true for `size ≤ 0`).
-/

namespace Laygo

universe u v

variable {α : Type u} {β : Type v}

/-- Embedding of `arrayGenerator` (src/index.ts): `for (const item of source) yield item`. -/
def arrayGenerator : List α → List α
  | [] => []
  | x :: xs => x :: arrayGenerator xs

/-- Embedding of transformer `map` (src/index.ts): `for await (const item of source) yield fn(item)`. -/
def map (fn : α → β) : List α → List β
  | [] => []
  | x :: xs => fn x :: map fn xs

/-- Embedding of transformer `filter` (src/index.ts): yield `item` iff `fn(item)`. -/
def filter (fn : α → Bool) : List α → List α
  | [] => []
  | x :: xs => if fn x then x :: filter fn xs else filter fn xs

/-- The `res.push(item)` drain loop shared by `result`, `collect` and `join`:
items are appended, in arrival order, to an accumulator array. -/
def resultGo : List α → List α → List α
  | [], acc => acc
  | x :: xs, acc => resultGo xs (acc ++ [x])

/-- Embedding of sink `result` (src/index.ts): drain the upstream into an ordered array. -/
def result (source : List α) : List α :=
  resultGo source []

/-- Embedding of transformer `collect` (src/index.ts lines 375-381): drain the
upstream into `res`, then `yield res` — a single output item. -/
def collect (source : List α) : List (List α) :=
  [resultGo source []]

/-- Embedding of transformer `join` (src/index.ts lines 105-111): drain the
upstream into `res`, then `yield res.join(separator)` — a single output string.
`Array.prototype.join` on strings is `String.intercalate`. -/
def join (separator : String) (source : List String) : List String :=
  [String.intercalate separator (resultGo source [])]

/-- The loop of transformer `take` (src/index.ts lines 383-392): push each pulled
item onto `res` and break as soon as `res.length === count`.  Returns the buffered
output together with the number of items pulled from the upstream.  `count` is a
JS number, embedded as `Int`; the `===` comparison is `(res.length : Int) = count`. -/
def takeGo (count : Int) : List α → List α → List α × Nat
  | [], res => (res, 0)
  | x :: xs, res =>
    let r := res ++ [x]
    if (r.length : Int) = count then (r, 1)
    else
      let p := takeGo count xs r
      (p.1, p.2 + 1)

/-- Embedding of transformer `take` (src/index.ts lines 383-392): the buffered loop
followed by `yield* res`.  First component: the yielded items; second component:
how many items were pulled from the upstream. -/
def take (count : Int) (source : List α) : List α × Nat :=
  takeGo count source []

/-- The loop of transformer `chunk` (src/index.ts lines 294-306): push each item
onto `buffer`, yield the buffer and reset it when `buffer.length === size`, and
after exhaustion yield the remaining buffer iff it is non-empty. -/
def chunkGo (size : Int) : List α → List α → List (List α)
  | [], buffer => if buffer.isEmpty then [] else [buffer]
  | x :: xs, buffer =>
    let b := buffer ++ [x]
    if (b.length : Int) = size then b :: chunkGo size xs []
    else chunkGo size xs b

/-- Embedding of transformer `chunk` (src/index.ts lines 294-306), starting from
an empty buffer. -/
def chunk (size : Int) (source : List α) : List (List α) :=
  chunkGo size source []

/-- The loop of transformer `unique` (src/index.ts lines 394-402): `seen` models
the JS `Set`; an item is yielded and added iff it is not yet in the set. -/
def uniqueGo [DecidableEq α] (seen : List α) : List α → List α
  | [] => []
  | x :: xs => if x ∈ seen then uniqueGo seen xs else x :: uniqueGo (x :: seen) xs

/-- Embedding of transformer `unique` (src/index.ts lines 394-402), starting from
an empty seen-set. -/
def unique [DecidableEq α] (source : List α) : List α :=
  uniqueGo [] source

/-- Modelled from the spec: the `reduce` transformer of the absent
`transformers` module — "sequential left fold — `acc₀ = initial`,
`accᵢ = fn(accᵢ₋₁, itemᵢ)`; result is the single final accumulator, emitted
once upstream exhausts". -/
def reduce (fn : β → α → β) (initial : β) (source : List α) : List β :=
  [source.foldl fn initial]

end Laygo

namespace Transformers

universe u v w

variable {α : Type u} {β : Type v} {ε : Type w}

/-- Modelled from the spec: the outcome of an ErrorPolicy of the absent
`errors` module — "Given the triggering input item and the thrown error,
yields one of: skip (drop the item, continue), substitute(value) (emit a
replacement output item, continue), propagate (rethrow; the whole pipeline
terminates with that error)". -/
inductive ErrorAction (β : Type v) where
  | skip : ErrorAction β
  | substitute : β → ErrorAction β
  | propagate : ErrorAction β

/-- Modelled from the spec: an ErrorMap is a per-stage decision function
from the triggering input item and the thrown error to an `ErrorAction`;
`none` (absence of a policy) is equivalent to an implicit propagate policy. -/
def ErrorMap (α : Type u) (β : Type v) (ε : Type w) : Type (max u v w) :=
  α → ε → ErrorAction β

/-- Modelled from the spec: the `map` transformer of the absent `transformers`
module with its optional ErrorMap — "output = fn(item) for each input, in
order; on fn failure consult ErrorPolicy".  A fallible callback is embedded as
`α → Except ε β`; a propagate outcome (explicit, or implicit when no policy is
attached) terminates the whole pipeline with the thrown error, which is what
the draining terminal operation observes. -/
def map (fn : α → Except ε β) (errorMap : Option (ErrorMap α β ε)) :
    List α → Except ε (List β)
  | [] => .ok []
  | x :: xs =>
    match fn x with
    | .ok b => (map fn errorMap xs).map (b :: ·)
    | .error e =>
      match errorMap with
      | none => .error e
      | some em =>
        match em x e with
        | .skip => map fn errorMap xs
        | .substitute v => (map fn errorMap xs).map (v :: ·)
        | .propagate => .error e

/-- The concrete callback of the spec's skip example: it throws on even-valued
inputs and otherwise returns `10 * n` (a stand-in for `f(n)`). -/
def evenThrow (n : Int) : Except Unit Int :=
  if n % 2 = 0 then .error () else .ok (10 * n)

/-- The always-skip error policy of the spec's skip example. -/
def skipPolicy : ErrorMap Int Int Unit :=
  fun _ _ => ErrorAction.skip

end Transformers

namespace Laygo

universe u' v'

variable {ρ : Type u'} {κ : Type v'}

/-- Embedding of the folding step of `groupBy` (src/pipeline.ts lines 105-116):
`(acc, val) => { const k = val[key]; if (!acc[k]) acc[k] = []; acc[k].push(val);
return acc }`.  The accumulator object is embedded as an insertion-ordered
association list; a key is added at the end on first sight, and the arriving
record is appended to its key's group. -/
def groupStep [DecidableEq κ] (key : ρ → κ) (acc : List (κ × List ρ)) (v : ρ) :
    List (κ × List ρ) :=
  match acc.lookup (key v) with
  | none => acc ++ [(key v, [v])]
  | some _ => acc.map (fun e => if e.1 = key v then (e.1, e.2 ++ [v]) else e)

/-- Embedding of `groupBy` (src/pipeline.ts lines 101-118): `reduce` over the
grouping step starting from the empty object, emitting the single final mapping
once the upstream exhausts. -/
def groupBy [DecidableEq κ] (key : ρ → κ) (source : List ρ) :
    List (List (κ × List ρ)) :=
  reduce (groupStep key) [] source

end Laygo

namespace Fork

universe u

variable {α : Type u}

/-- Modelled from the spec: the shared state of the absent `fork` module
(`createForkableGenerator`) — "the single upstream sequence, an ordered buffer
of items pulled but not yet consumed by every live handle, the set of live
handles, an exhaustion flag".  `upstream` holds the items the origin sequence
has not yet yielded (`[]` once exhausted); `pulls` counts the upstream pulls
that yielded an item; `buffer` tags each buffered item with its
pending-reader count; `start` is the absolute index of the buffer's front;
`readers` is the number of handles live at shared-state creation.  A handle is
just its monotonically increasing read cursor.  Scheduling is single-threaded
and cooperative, so the upstream mutex of the spec is the sequential order of
`pull` steps. -/
structure ForkState (α : Type u) where
  upstream : List α
  pulls : Nat
  buffer : List (α × Nat)
  start : Nat
  readers : Nat

/-- The absolute index one past the last buffered item: the buffer's write
frontier. -/
def frontier (s : ForkState α) : Nat :=
  s.start + s.buffer.length

/-- Modelled from the spec: eviction — "evicting the slot from the buffer's
front once its count reaches zero".  Drops the maximal run of zero-count slots
at the front, returning the remaining buffer and how many slots were evicted. -/
def evictFront : List (α × Nat) → List (α × Nat) × Nat
  | [] => ([], 0)
  | (x, c) :: rest =>
    if c = 0 then
      let p := evictFront rest
      (p.1, p.2 + 1)
    else ((x, c) :: rest, 0)

/-- Modelled from the spec: serving a buffered item — "if the shared buffer has
an unread item at the handle's cursor, return it and advance the cursor;
decrement that slot's pending-reader count, evicting the slot from the
buffer's front once its count reaches zero". -/
def readSlot (s : ForkState α) (cursor : Nat) : Option α × ForkState α :=
  match s.buffer.get? (cursor - s.start) with
  | none => (none, s)
  | some (x, c) =>
    let b := s.buffer.set (cursor - s.start) (x, c - 1)
    let p := evictFront b
    (some x, { s with buffer := p.1, start := s.start + p.2 })

/-- Modelled from the spec: one pull on a fork handle — serve from the buffer
when the cursor is behind the write frontier; otherwise pull the upstream once,
append the result tagged with a pending-reader count equal to the number of
handles live at shared-state creation, and serve it; when the upstream is
exhausted, signal exhaustion without moving the cursor. -/
def pull (s : ForkState α) (cursor : Nat) : Option α × ForkState α × Nat :=
  if cursor < frontier s then
    let p := readSlot s cursor
    (p.1, p.2, cursor + 1)
  else
    match s.upstream with
    | [] => (none, s, cursor)
    | x :: rest =>
      let s1 : ForkState α :=
        { s with
          upstream := rest
          pulls := s.pulls + 1
          buffer := s.buffer ++ [(x, s.readers)] }
      let p := readSlot s1 cursor
      (p.1, p.2, cursor + 1)

/-- Draining one handle with `result()`: pull repeatedly, collecting yielded
items in order, until exhaustion is signalled (or the fuel runs out; fuel at
least the number of remaining items is exact, since `result()` performs one
pull per item plus one final pull that observes exhaustion). -/
def drain (fuel : Nat) (s : ForkState α) (cursor : Nat) :
    List α × ForkState α × Nat :=
  match fuel with
  | 0 => ([], s, cursor)
  | f + 1 =>
    match pull s cursor with
    | (none, s', c') => ([], s', c')
    | (some x, s', c') =>
      let p := drain f s' c'
      (x :: p.1, p.2.1, p.2.2)

/-- The shared state created by the first `fork()` call on a pipeline over
source `l` when `k` branches are requested before any consumption: nothing
pulled, empty buffer, `k` live handles, every handle's cursor at 0. -/
def initState (k : Nat) (l : List α) : ForkState α :=
  ⟨l, 0, [], 0, k⟩

/-- Drain `j` handles one after another (each a fresh branch with cursor 0,
as all branches were created before any consumption), returning every
branch's `result()` and the final count of upstream pulls that yielded an
item. -/
def drainLoop (fuel : Nat) : Nat → ForkState α → List (List α) × Nat
  | 0, s => ([], s.pulls)
  | j + 1, s =>
    let p := drain fuel s 0
    let rest := drainLoop fuel j p.2.1
    (p.1 :: rest.1, rest.2)

/-- Fork `k` branches of source `l` before any consumption, then drain each
branch independently with `result()`. -/
def drainAll (k : Nat) (l : List α) : List (List α) × Nat :=
  drainLoop (l.length + 1) k (initState k l)

end Fork

namespace Facade

/-- The dynamically typed item values flowing through the façade: the façade's
internal binding in src/pipeline.ts is `let generator: AsyncGenerator<any>`,
so items are JS values — integers or arrays of further values suffice for
every stage the claims exercise (`chunk` wraps items into an array value,
`flat` spreads array values). -/
inductive JsVal where
  | int : Int → JsVal
  | arr : List JsVal → JsVal

mutual

def JsVal.decEq : (a b : JsVal) → Decidable (a = b)
  | .int x, .int y =>
    if h : x = y then .isTrue (by rw [h]) else .isFalse (by simp [h])
  | .int _, .arr _ => .isFalse (by simp)
  | .arr _, .int _ => .isFalse (by simp)
  | .arr xs, .arr ys =>
    match JsVal.decEqList xs ys with
    | .isTrue h => .isTrue (by rw [h])
    | .isFalse h => .isFalse (by simpa using h)

def JsVal.decEqList : (a b : List JsVal) → Decidable (a = b)
  | [], [] => .isTrue rfl
  | [], _ :: _ => .isFalse (by simp)
  | _ :: _, [] => .isFalse (by simp)
  | x :: xs, y :: ys =>
    match JsVal.decEq x y, JsVal.decEqList xs ys with
    | .isTrue h1, .isTrue h2 => .isTrue (by rw [h1, h2])
    | .isFalse h1, _ => .isFalse (by simp [h1])
    | _, .isFalse h2 => .isFalse (by simp [h2])

end

instance : DecidableEq JsVal := JsVal.decEq

/-- Embedding of transformer `flat` (src/index.ts lines 282-292): an item that
is an array (`Array.isArray`) has its elements yielded individually in order,
one level only; any other item is yielded unchanged. -/
def flat : List JsVal → List JsVal
  | [] => []
  | JsVal.arr a :: xs => a ++ flat xs
  | x :: xs => x :: flat xs

/-- A façade object.  In src/pipeline.ts each call to `pipeline(source)`
creates one closure whose single mutable binding `generator` holds the current
sequence; a façade value is a reference to that binding, embedded as an index
into a heap of bindings. -/
structure Obj where
  ref : Nat

/-- The heap of façade bindings: one current-sequence slot per façade closure
ever created. -/
abbrev Heap : Type :=
  List (List JsVal)

/-- Read a façade's current-sequence binding. -/
def getGen (h : Heap) (p : Obj) : List JsVal :=
  List.getD h p.ref []

/-- Reassign a façade's current-sequence binding. -/
def setGen (h : Heap) (p : Obj) (g : List JsVal) : Heap :=
  List.set h p.ref g

/-- Embedding of the façade's `map` method (src/pipeline.ts lines 37-40):
`generator = map(generator, fn); return this`. -/
def callMap (h : Heap) (p : Obj) (fn : JsVal → JsVal) : Heap × Obj :=
  (setGen h p (Laygo.map fn (getGen h p)), p)

/-- Embedding of the façade's `filter` method (src/pipeline.ts lines 41-44):
`generator = filter(generator, fn); return this`. -/
def callFilter (h : Heap) (p : Obj) (fn : JsVal → Bool) : Heap × Obj :=
  (setGen h p (Laygo.filter fn (getGen h p)), p)

/-- Embedding of the façade's `chunk` method (src/pipeline.ts lines 45-48):
`generator = chunk(generator, size); return this`; each emitted group is an
array value. -/
def callChunk (h : Heap) (p : Obj) (size : Int) : Heap × Obj :=
  (setGen h p ((Laygo.chunk size (getGen h p)).map JsVal.arr), p)

/-- Embedding of the façade's `take` method (src/pipeline.ts lines 49-52):
`generator = take(generator, count); return this`. -/
def callTake (h : Heap) (p : Obj) (count : Int) : Heap × Obj :=
  (setGen h p (Laygo.take count (getGen h p)).1, p)

/-- Embedding of the façade's `flat` method (src/pipeline.ts lines 53-56):
`generator = flat(generator); return this`. -/
def callFlat (h : Heap) (p : Obj) : Heap × Obj :=
  (setGen h p (flat (getGen h p)), p)

/-- Embedding of the façade's `unique` method (src/pipeline.ts lines 89-92):
`generator = unique(generator); return this`. -/
def callUnique (h : Heap) (p : Obj) : Heap × Obj :=
  (setGen h p (Laygo.unique (getGen h p)), p)

/-- Embedding of the façade's `toGenerator` method (src/pipeline.ts lines
78-80): return the current sequence binding. -/
def toGenerator (h : Heap) (p : Obj) : List JsVal :=
  getGen h p

end Facade

section BasicLemmas

universe u v

variable {α : Type u} {β : Type v}

theorem arrayGenerator_eq (l : List α) : Laygo.arrayGenerator l = l := by
  induction l with
  | nil => rfl
  | cons x xs ih => simp [Laygo.arrayGenerator, ih]

theorem laygoMap_eq (f : α → β) (l : List α) : Laygo.map f l = l.map f := by
  induction l with
  | nil => rfl
  | cons x xs ih => simp [Laygo.map, ih]

theorem laygoFilter_eq (p : α → Bool) (l : List α) :
    Laygo.filter p l = l.filter p := by
  induction l with
  | nil => rfl
  | cons x xs ih =>
    by_cases h : p x <;> simp [Laygo.filter, h, ih, List.filter_cons]

theorem resultGo_eq (l acc : List α) : Laygo.resultGo l acc = acc ++ l := by
  induction l generalizing acc with
  | nil => simp [Laygo.resultGo]
  | cons x xs ih => simp [Laygo.resultGo, ih]

theorem result_eq (l : List α) : Laygo.result l = l := by
  simp [Laygo.result, resultGo_eq]

end BasicLemmas

section ClaimC6

universe u v

variable {α : Type u} {β : Type v}

/-- C6: for every input list and every function `f`, building a pipeline from
that list, applying `map(f)`, and draining with `result()` yields the same
list as applying `f` element-wise (preserving length and order) to the list
obtained by draining the unmapped source with `result()`. -/
theorem map_result_functorial (f : α → β) (l : List α) :
    Laygo.result (Laygo.map f (Laygo.arrayGenerator l)) =
      (Laygo.result (Laygo.arrayGenerator l)).map f := by
  simp [result_eq, laygoMap_eq, arrayGenerator_eq]

end ClaimC6

section ClaimC10

universe u

variable {α : Type u}

/-- C10: for every upstream, including an empty one, `collect()` emits exactly
one output item — the ordered list of all upstream items, possibly empty — and
`join(delimiter)` emits exactly one output string, the empty string when the
upstream was empty; neither aggregator ever emits zero items. -/
theorem collect_join_emit_once (l : List α) (sep : String) (m : List String) :
    (Laygo.collect l).length = 1 ∧ Laygo.collect l = [l] ∧
    (Laygo.join sep m).length = 1 ∧ Laygo.join sep [] = [""] := by
  refine ⟨?_, ?_, ?_, ?_⟩
  · rfl
  · simp [Laygo.collect, resultGo_eq]
  · rfl
  · rfl

end ClaimC10

section ClaimC3

/-- C3: the claim states that `take(k)` yields the empty output for zero (or
negative) count, pulling no upstream items; but on count `0` the code's stop
test `res.length === count` is never true after a push, so over the source
`[1,2,3]` the stage pulls all three items and yields all of them. -/
theorem take_zero_drains_everything :
    Laygo.take (0 : Int) ([1, 2, 3] : List Int) = ([1, 2, 3], 3) := by
  decide

end ClaimC3

section ClaimC5

universe u

variable {α : Type u}

theorem chunkGo_nonpos {size : Int} (hs : size ≤ 0) (l buffer : List α) :
    Laygo.chunkGo size l buffer =
      if (buffer ++ l).isEmpty then [] else [buffer ++ l] := by
  induction l generalizing buffer with
  | nil => cases buffer <;> simp [Laygo.chunkGo]
  | cons x xs ih =>
    have hne : ¬((buffer ++ [x]).length : Int) = size := by
      have h1 : 1 ≤ (buffer ++ [x]).length := by simp
      have h2 : (1 : Int) ≤ ((buffer ++ [x]).length : Int) := by exact_mod_cast h1
      omega
    simp only [Laygo.chunkGo]
    rw [if_neg hne, ih]
    simp

/-- C5 counterexample: a chunk stage constructed with size `0` and used on the
source `[1,2]` raises no error — it evaluates to the normal output `[[1,2]]`,
silently emitting every upstream item as one group. -/
theorem chunk_zero_silent_output :
    Laygo.chunk (0 : Int) ([1, 2] : List Int) = [[1, 2]] := by
  decide

/-- C5 amended: with a non-positive size the chunk stage raises no error; the
stop test `buffer.length === size` is never true after a push, so every
upstream item accumulates in the buffer and is emitted as one final group at
exhaustion (and an empty upstream yields no output at all). -/
theorem chunk_nonpositive_no_error (size : Int) (hs : size ≤ 0) (l : List α) :
    Laygo.chunk size l = if l.isEmpty then [] else [l] := by
  simpa using chunkGo_nonpos hs l []

/-- C5 witness: the amended behavior at size `-1` over `[1,2,3]`. -/
theorem chunk_nonpositive_no_error_witness :
    Laygo.chunk (-1 : Int) ([1, 2, 3] : List Int) = [[1, 2, 3]] := by
  simpa using chunk_nonpositive_no_error (-1) (by decide) ([1, 2, 3] : List Int)

end ClaimC5

section ClaimC9

open Facade

theorem getGen_default (h : Heap) (p : Obj) (hr : ¬p.ref < h.length) :
    getGen h p = [] := by
  have hnone : h[p.ref]? = none := List.getElem?_eq_none (by omega)
  simp [getGen, List.getD, hnone]

theorem getGen_setGen (h : Heap) (p : Obj) (g : List JsVal) :
    getGen (setGen h p g) p = if p.ref < h.length then g else [] := by
  by_cases hr : p.ref < h.length
  · simp [getGen, setGen, hr, List.getD, List.getElem?_set_self]
  · have hset : List.set h p.ref g = h := List.set_eq_of_length_le (by omega)
    simp [setGen, hset, hr, getGen_default h p hr]

theorem length_setGen (h : Heap) (p : Obj) (g : List JsVal) :
    (setGen h p g).length = h.length := by
  simp [setGen]

/-- C9: every chaining method of the pipeline façade returns the very same
façade object it was called on (`map`, `filter`, `chunk`, `take`, `flat`,
`unique` all reassign the façade's single mutable current-sequence binding and
return `this`); no new façade binding is allocated by a chaining call, and a
reference captured before further chaining observes the fully chained
sequence, so all references returned along a chain alias one façade. -/
theorem facade_chaining_aliases (h : Heap) (p : Obj) (f : JsVal → JsVal)
    (q : JsVal → Bool) (size count : Int) :
    (callMap h p f).2 = p ∧ (callFilter h p q).2 = p ∧
    (callChunk h p size).2 = p ∧ (callTake h p count).2 = p ∧
    (callFlat h p).2 = p ∧ (callUnique h p).2 = p ∧
    (callMap h p f).1.length = h.length ∧
    toGenerator (callFilter (callMap h p f).1 (callMap h p f).2 q).1 p =
      Laygo.filter q (Laygo.map f (toGenerator h p)) := by
  refine ⟨rfl, rfl, rfl, rfl, rfl, rfl, length_setGen .., ?_⟩
  by_cases hr : p.ref < h.length
  · have h1 : p.ref < (callMap h p f).1.length := by
      simpa [callMap, length_setGen] using hr
    simp [toGenerator, callFilter, callMap, getGen_setGen, hr, h1,
      length_setGen]
  · simp [toGenerator, callFilter, callMap, getGen_setGen, hr,
      length_setGen, getGen_default h p hr, Laygo.map, Laygo.filter]

end ClaimC9

section ClaimC2

universe u v w

variable {α : Type u} {β : Type v} {ε : Type w}

theorem transformersMap_skip (f : α → Except ε β) (l : List α) :
    Transformers.map f (some fun _ _ => Transformers.ErrorAction.skip) l =
      Except.ok (l.filterMap fun a => (f a).toOption) := by
  induction l with
  | nil => rfl
  | cons x xs ih =>
    cases hfx : f x with
    | ok b => simp [Transformers.map, hfx, ih, Except.toOption, Except.map]
    | error e => simp [Transformers.map, hfx, ih, Except.toOption]

theorem transformersMap_none_propagates (f : α → Except ε β) (l : List α)
    (hfail : ∃ a ∈ l, ∃ e, f a = Except.error e) :
    ∃ e, Transformers.map f none l = Except.error e := by
  induction l with
  | nil => simp at hfail
  | cons x xs ih =>
    cases hfx : f x with
    | ok b =>
      obtain ⟨a, ha, e, hae⟩ := hfail
      rcases List.mem_cons.mp ha with h | h
      · subst h
        rw [hfx] at hae
        exact absurd hae (by simp)
      · obtain ⟨e2, he2⟩ := ih ⟨a, h, e, hae⟩
        exact ⟨e2, by simp [Transformers.map, hfx, he2, Except.map]⟩
    | error e => exact ⟨e, by simp [Transformers.map, hfx]⟩

/-- C2: for every input list and every map callback `f` guarded by a skip
error policy, the items on which `f` throws are dropped and all other items
are emitted transformed, in order; concretely, map over `[1,2,3,4]` with a
callback that throws on even inputs and a skip policy yields exactly
`[f(1), f(3)]` (here `f(n) = 10 * n`); absent a policy, a callback failure
propagates and terminates the pipeline with that error. -/
theorem map_skip_policy_spec (f : α → Except ε β) (l : List α) :
    Transformers.map f (some fun _ _ => Transformers.ErrorAction.skip) l =
        Except.ok (l.filterMap fun a => (f a).toOption) ∧
      Transformers.map Transformers.evenThrow (some Transformers.skipPolicy)
          [1, 2, 3, 4] = Except.ok [10, 30] ∧
      ((∃ a ∈ l, ∃ e, f a = Except.error e) →
        ∃ e, Transformers.map f none l = Except.error e) :=
  ⟨transformersMap_skip f l, rfl, transformersMap_none_propagates f l⟩

/-- C2 witness: a callback failure with no policy attached propagates on the
concrete input `[2]`, and the spec's concrete skip example holds. -/
theorem map_skip_policy_spec_witness :
    (∃ e, Transformers.map Transformers.evenThrow none [(2 : Int)] =
        Except.error e) ∧
      Transformers.map Transformers.evenThrow (some Transformers.skipPolicy)
        [1, 2, 3, 4] = Except.ok [10, 30] :=
  ⟨(map_skip_policy_spec Transformers.evenThrow [(2 : Int)]).2.2
      ⟨2, by simp, (), rfl⟩,
    (map_skip_policy_spec Transformers.evenThrow [(2 : Int)]).2.1⟩

end ClaimC2

section ClaimC4

universe u

variable {α : Type u}

theorem chunkGo_small {n : Nat} (xs : List α) :
    ∀ buffer : List α, buffer.length + xs.length < n →
      Laygo.chunkGo (n : Int) xs buffer =
        if (buffer ++ xs).isEmpty then [] else [buffer ++ xs] := by
  induction xs with
  | nil =>
    intro buffer _
    cases buffer <;> simp [Laygo.chunkGo]
  | cons x xs ih =>
    intro buffer hlt
    simp only [List.length_cons] at hlt
    have hne : ¬(((buffer ++ [x]).length : Int) = (n : Int)) := by
      have h1 : (buffer ++ [x]).length < n := by
        simp only [List.length_append, List.length_cons, List.length_nil]
        omega
      intro hc
      have : (buffer ++ [x]).length = n := by exact_mod_cast hc
      omega
    simp only [Laygo.chunkGo]
    rw [if_neg hne, ih (buffer ++ [x])
      (by simp only [List.length_append, List.length_cons, List.length_nil]; omega)]
    simp

theorem chunkGo_step {n : Nat} (xs : List α) :
    ∀ buffer : List α, buffer.length < n → n ≤ buffer.length + xs.length →
      Laygo.chunkGo (n : Int) xs buffer =
        (buffer ++ xs.take (n - buffer.length)) ::
          Laygo.chunkGo (n : Int) (xs.drop (n - buffer.length)) [] := by
  induction xs with
  | nil =>
    intro buffer hb hge
    simp at hge
    omega
  | cons x xs ih =>
    intro buffer hb hge
    simp only [List.length_cons] at hge
    have hax : (buffer ++ [x]).length = buffer.length + 1 := by
      simp
    have hsub : n - buffer.length = (n - (buffer.length + 1)) + 1 := by omega
    by_cases heq : (buffer ++ [x]).length = n
    · have hcast : (((buffer ++ [x]).length : Int) = (n : Int)) := by
        exact_mod_cast heq
      simp only [Laygo.chunkGo]
      rw [if_pos hcast]
      have h0 : n - (buffer.length + 1) = 0 := by omega
      have htake : List.take (n - buffer.length) (x :: xs) = [x] := by
        rw [hsub, h0]
        simp
      have hdrop : List.drop (n - buffer.length) (x :: xs) = xs := by
        rw [hsub, h0]
        simp
      rw [htake, hdrop]
    · have hcast : ¬(((buffer ++ [x]).length : Int) = (n : Int)) := by
        intro hc
        exact heq (by exact_mod_cast hc)
      simp only [Laygo.chunkGo]
      rw [if_neg hcast,
        ih (buffer ++ [x]) (by omega) (by rw [hax]; omega)]
      have hm : n - (buffer ++ [x]).length = n - (buffer.length + 1) := by
        rw [hax]
      rw [hm, hsub]
      simp

theorem chunk_lengths_aux {n : Nat} (hn : 1 ≤ n) :
    ∀ N : Nat, ∀ l : List α, l.length ≤ N →
      (Laygo.chunk (n : Int) l).map List.length =
        List.replicate (l.length / n) n ++
          (if l.length % n = 0 then [] else [l.length % n]) := by
  intro N
  induction N with
  | zero =>
    intro l hl
    have : l = [] := List.eq_nil_of_length_eq_zero (by omega)
    subst this
    simp [Laygo.chunk, Laygo.chunkGo]
  | succ N ih =>
    intro l hl
    by_cases hsmall : l.length < n
    · have := chunkGo_small (n := n) l [] (by simpa using hsmall)
      rw [Laygo.chunk, this]
      rcases l with _ | ⟨x, xs⟩
      · simp
      · have hmod : (x :: xs).length % n = (x :: xs).length :=
          Nat.mod_eq_of_lt hsmall
        have hdiv : (x :: xs).length / n = 0 := Nat.div_eq_of_lt hsmall
        rw [List.nil_append, hdiv, hmod]
        simp
    · push_neg at hsmall
      have hstep := chunkGo_step (n := n) l []
        (by simp only [List.length_nil]; omega) (by simpa using hsmall)
      simp only [List.nil_append, Nat.sub_zero, List.length_nil] at hstep
      rw [Laygo.chunk, hstep]
      have hlen : (List.drop n l).length = l.length - n := by simp
      have hih := ih (List.drop n l) (by simp; omega)
      rw [Laygo.chunk] at hih
      simp only [List.map_cons, hih, hlen]
      have htl : (List.take n l).length = n := by
        simp [Nat.min_eq_left hsmall]
      have hdiv : l.length / n = (l.length - n) / n + 1 :=
        Nat.div_eq_sub_div (by omega) hsmall
      have hmod : l.length % n = (l.length - n) % n :=
        Nat.mod_eq_sub_mod hsmall
      rw [htl, hdiv, hmod, List.replicate_succ]
      simp

theorem chunk_lengths {n : Nat} (hn : 1 ≤ n) (l : List α) :
    (Laygo.chunk (n : Int) l).map List.length =
      List.replicate (l.length / n) n ++
        (if l.length % n = 0 then [] else [l.length % n]) :=
  chunk_lengths_aux hn l.length l (Nat.le_refl _)

theorem ceil_div_split {L n : Nat} (hn : 1 ≤ n) :
    L / n + (if L % n = 0 then 0 else 1) = (L + n - 1) / n := by
  have hdm := Nat.div_add_mod L n
  by_cases h : L % n = 0
  · have key : L + n - 1 = n * (L / n) + (n - 1) := by omega
    rw [key, Nat.mul_add_div (by omega)]
    simp [Nat.div_eq_of_lt (by omega : n - 1 < n), h]
  · have hrn : L % n < n := Nat.mod_lt _ (by omega)
    have key : L + n - 1 = n * (L / n) + (L % n + n - 1) := by omega
    have key2 : L % n + n - 1 = (L % n - 1) + n := by omega
    rw [key, Nat.mul_add_div (by omega), key2, Nat.add_div_right _ (by omega),
      Nat.div_eq_of_lt (by omega : L % n - 1 < n)]
    simp [h]

/-- C4: for every size `n ≥ 1` and every upstream of length `L`, `chunk(n)`
emits exactly `⌈L/n⌉` groups of consecutive items; every group except possibly
the last has exactly `n` elements, and the last has `L mod n` elements when
`L mod n` is nonzero, else `n` elements. -/
theorem chunk_shape {n : Nat} (hn : 1 ≤ n) (l : List α) :
    (Laygo.chunk (n : Int) l).length = (l.length + n - 1) / n ∧
      (∀ g ∈ (Laygo.chunk (n : Int) l).dropLast, g.length = n) ∧
      (∀ g, (Laygo.chunk (n : Int) l).getLast? = some g →
        g.length = if l.length % n ≠ 0 then l.length % n else n) := by
  have hml := chunk_lengths hn l
  refine ⟨?_, ?_, ?_⟩
  · have : ((Laygo.chunk (n : Int) l).map List.length).length =
        (l.length + n - 1) / n := by
      rw [hml]
      by_cases h : l.length % n = 0 <;>
        simp [h, ← ceil_div_split hn]
    simpa using this
  · intro g hg
    have hmm : g.length ∈ ((Laygo.chunk (n : Int) l).map List.length).dropLast := by
      rw [← List.map_dropLast]
      exact List.mem_map_of_mem List.length hg
    rw [hml] at hmm
    by_cases h : l.length % n = 0
    · rw [if_pos h, List.append_nil] at hmm
      exact List.eq_of_mem_replicate
        (List.Sublist.mem hmm (List.dropLast_sublist _))
    · rw [if_neg h, List.dropLast_concat] at hmm
      exact List.eq_of_mem_replicate hmm
  · intro g hg
    have hlast : ((Laygo.chunk (n : Int) l).map List.length).getLast? =
        some g.length := by
      rw [List.getLast?_map, hg]
      rfl
    rw [hml] at hlast
    by_cases h : l.length % n = 0
    · rw [if_pos h, List.append_nil, List.getLast?_replicate] at hlast
      have hq : ¬l.length / n = 0 := by
        intro hq0
        rw [if_pos hq0] at hlast
        exact Option.noConfusion hlast
      rw [if_neg hq] at hlast
      simp only [Option.some.injEq] at hlast
      simp only [ne_eq, h, not_true_eq_false, if_false]
      omega
    · rw [if_neg h, List.getLast?_concat] at hlast
      simp only [Option.some.injEq] at hlast
      simp only [ne_eq, h, not_false_eq_true, if_true]
      omega

/-- C4 witness: `chunk(2)` over a three-item source emits two groups, the
non-last group has two elements, and the last group has `3 mod 2 = 1`. -/
theorem chunk_shape_witness :
    (Laygo.chunk (2 : Int) ([1, 2, 3] : List Int)).length = 2 ∧
      (∀ g ∈ (Laygo.chunk (2 : Int) ([1, 2, 3] : List Int)).dropLast,
        g.length = 2) ∧
      (∀ g, (Laygo.chunk (2 : Int) ([1, 2, 3] : List Int)).getLast? = some g →
        g.length = if (3 : Nat) % 2 ≠ 0 then 3 % 2 else 2) := by
  have h := chunk_shape (n := 2) (by decide) ([1, 2, 3] : List Int)
  simpa using h

end ClaimC4

section ClaimC7

universe u

variable {α : Type u} [DecidableEq α]

theorem mem_uniqueGo (xs : List α) :
    ∀ seen x, x ∈ Laygo.uniqueGo seen xs ↔ x ∈ xs ∧ x ∉ seen := by
  induction xs with
  | nil => simp [Laygo.uniqueGo]
  | cons y ys ih =>
    intro seen x
    by_cases hy : y ∈ seen
    · rw [Laygo.uniqueGo, if_pos hy, ih]
      by_cases hxy : x = y
      · subst hxy
        simp [hy]
      · simp [hxy]
    · rw [Laygo.uniqueGo, if_neg hy]
      simp only [List.mem_cons, ih]
      by_cases hxy : x = y
      · subst hxy
        simp [hy]
      · simp [hxy]

theorem nodup_uniqueGo (xs : List α) :
    ∀ seen, (Laygo.uniqueGo seen xs).Nodup := by
  induction xs with
  | nil =>
    intro seen
    simp [Laygo.uniqueGo]
  | cons y ys ih =>
    intro seen
    by_cases hy : y ∈ seen
    · rw [Laygo.uniqueGo, if_pos hy]
      exact ih seen
    · rw [Laygo.uniqueGo, if_neg hy]
      refine List.nodup_cons.mpr ⟨?_, ih (y :: seen)⟩
      intro hc
      exact ((mem_uniqueGo ys (y :: seen) y).mp hc).2 (List.mem_cons_self y seen)

theorem uniqueGo_firstOcc (l : List α) :
    ∀ k m seen, l.length - m ≤ k → (∀ a : α, a ∈ seen ↔ a ∈ l.take m) →
      Laygo.uniqueGo seen (l.drop m) =
        (((l.drop m).enumFrom m).filter
          (fun p => decide (p.2 ∉ l.take p.1))).map Prod.snd := by
  intro k
  induction k with
  | zero =>
    intro m seen hk _
    have hnil : l.drop m = [] := List.drop_eq_nil_of_le (by omega)
    simp [hnil, Laygo.uniqueGo]
  | succ k ihk =>
    intro m seen hk hseen
    by_cases hm : l.length ≤ m
    · have hnil : l.drop m = [] := List.drop_eq_nil_of_le hm
      simp [hnil, Laygo.uniqueGo]
    · push_neg at hm
      have hdrop : l.drop m = l[m] :: l.drop (m + 1) :=
        List.drop_eq_getElem_cons hm
      have htk : l.take (m + 1) = l.take m ++ [l[m]] := by
        rw [List.take_succ, List.getElem?_eq_getElem hm]
        rfl
      rw [hdrop, List.enumFrom_cons]
      by_cases hx : l[m] ∈ seen
      · have hc2 : decide (l[m] ∉ l.take m) = false := by
          simp only [decide_eq_false_iff_not, not_not]
          exact (hseen l[m]).mp hx
        have hseen2 : ∀ a : α, a ∈ seen ↔ a ∈ l.take (m + 1) := by
          intro a
          rw [htk]
          constructor
          · intro ha
            exact List.mem_append_left _ ((hseen a).mp ha)
          · intro ha
            rcases List.mem_append.mp ha with ha | ha
            · exact (hseen a).mpr ha
            · rw [List.mem_singleton.mp ha]
              exact hx
        rw [Laygo.uniqueGo, if_pos hx]
        simp only [List.filter_cons, hc2, Bool.false_eq_true, if_false]
        exact ihk (m + 1) seen (by omega) hseen2
      · have hc2 : decide (l[m] ∉ l.take m) = true := by
          simp only [decide_eq_true_iff]
          exact fun hc => hx ((hseen l[m]).mpr hc)
        have hseen2 : ∀ a : α, a ∈ l[m] :: seen ↔ a ∈ l.take (m + 1) := by
          intro a
          rw [htk]
          simp only [List.mem_cons, List.mem_append, List.mem_singleton, hseen a]
          tauto
        rw [Laygo.uniqueGo, if_neg hx]
        simp only [List.filter_cons, hc2, if_true, List.map_cons]
        rw [ihk (m + 1) (l[m] :: seen) (by omega) hseen2]

/-- C7: for every input sequence, `unique()` emits each distinct value exactly
once, at the position of its first occurrence (keeping exactly the items that
do not occur earlier in the input), dropping all later duplicates; for input
`[1,2,1,3,2]` the output is `[1,2,3]`. -/
theorem unique_first_occurrence (l : List α) :
    Laygo.unique l =
        (l.enum.filter (fun p => decide (p.2 ∉ l.take p.1))).map Prod.snd ∧
      (Laygo.unique l).Nodup ∧
      (∀ x, x ∈ Laygo.unique l ↔ x ∈ l) ∧
      Laygo.unique ([1, 2, 1, 3, 2] : List Int) = [1, 2, 3] := by
  refine ⟨?_, nodup_uniqueGo l [], ?_, by decide⟩
  · have h := uniqueGo_firstOcc l l.length 0 [] (by omega) (by simp)
    simpa [Laygo.unique, List.enum_eq_enumFrom] using h
  · intro x
    rw [Laygo.unique, mem_uniqueGo]
    simp

end ClaimC7

section ClaimC8

universe u v

variable {ρ : Type u} {κ : Type v} [DecidableEq κ]

theorem lookup_mapUpdate (k0 : κ) (v : ρ) :
    ∀ (acc : List (κ × List ρ)) (k : κ),
      (acc.map fun e => if e.1 = k0 then (e.1, e.2 ++ [v]) else e).lookup k =
        if k = k0 then (acc.lookup k).map (· ++ [v]) else acc.lookup k := by
  intro acc
  induction acc with
  | nil =>
    intro k
    by_cases hk : k = k0 <;> simp [hk]
  | cons e es ih =>
    intro k
    obtain ⟨a, b⟩ := e
    by_cases ha : a = k0
    · subst ha
      by_cases hk : k = a
      · subst hk
        simp [List.lookup_cons]
      · have hbeq : (k == a) = false := by simp [hk]
        simp [List.lookup_cons, hbeq, hk, ih k]
    · by_cases hk : k = a
      · subst hk
        simp [List.lookup_cons, ha]
      · have hbeq : (k == a) = false := by simp [hk]
        simp [List.lookup_cons, ha, hbeq, ih k]

theorem filter_key_eq_nil (key : ρ → κ) (k : κ) :
    ∀ P : List ρ, k ∉ P.map key →
      P.filter (fun r => decide (key r = k)) = [] := by
  intro P
  induction P with
  | nil =>
    intro _
    rfl
  | cons p ps ih =>
    intro h
    simp only [List.map_cons, List.mem_cons] at h
    push_neg at h
    have hc : decide (key p = k) = false := by
      simp only [decide_eq_false_iff_not]
      exact fun hc => h.1 hc.symm
    simp [List.filter_cons, hc, ih h.2]

theorem groupStep_lookup (key : ρ → κ) (acc : List (κ × List ρ)) (P : List ρ)
    (v : ρ)
    (hinv : ∀ k, acc.lookup k =
      if k ∈ P.map key
      then some (P.filter fun r => decide (key r = k)) else none) :
    ∀ k, (Laygo.groupStep key acc v).lookup k =
      if k ∈ (P ++ [v]).map key
      then some ((P ++ [v]).filter fun r => decide (key r = k)) else none := by
  intro k
  have hfk : (P ++ [v]).filter (fun r => decide (key r = k)) =
      P.filter (fun r => decide (key r = k)) ++
        (if key v = k then [v] else []) := by
    rw [List.filter_append]
    by_cases hv : key v = k <;> simp [List.filter_cons, hv]
  have hmk : (k ∈ (P ++ [v]).map key) ↔ (k ∈ P.map key ∨ k = key v) := by
    simp [or_comm, eq_comm]
  cases hlk : acc.lookup (key v) with
  | none =>
    have hnotmem : key v ∉ P.map key := by
      intro hmem
      have := hinv (key v)
      rw [hlk, if_pos hmem] at this
      exact Option.noConfusion this
    have hstep : Laygo.groupStep key acc v = acc ++ [(key v, [v])] := by
      rw [Laygo.groupStep, hlk]
    rw [hstep, List.lookup_append, hinv k]
    by_cases hk : k = key v
    · subst hk
      rw [if_neg hnotmem]
      rw [if_pos (hmk.mpr (Or.inr rfl)), hfk, if_pos rfl,
        filter_key_eq_nil key _ P hnotmem]
      simp
    · have hsing : ([(key v, [v])] : List (κ × List ρ)).lookup k = none := by
        have hbeq : (k == key v) = false := by simp [hk]
        simp [List.lookup_cons, hbeq]
      rw [hsing]
      by_cases hmem : k ∈ P.map key
      · rw [if_pos hmem, if_pos (hmk.mpr (Or.inl hmem)), hfk,
          if_neg (fun hc => hk hc.symm)]
        simp
      · rw [if_neg hmem, if_neg (fun hc => (hmk.mp hc).elim hmem hk)]
        simp
  | some vs =>
    have hmemv : key v ∈ P.map key := by
      by_contra hmem
      have := hinv (key v)
      rw [hlk, if_neg hmem] at this
      exact Option.noConfusion this
    have hstep : Laygo.groupStep key acc v =
        acc.map fun e => if e.1 = key v then (e.1, e.2 ++ [v]) else e := by
      rw [Laygo.groupStep, hlk]
    rw [hstep, lookup_mapUpdate (key v) v acc k, hinv k]
    by_cases hk : k = key v
    · subst hk
      rw [if_pos rfl, if_pos hmemv, if_pos (hmk.mpr (Or.inr rfl)), hfk,
        if_pos rfl]
      simp
    · rw [if_neg hk]
      by_cases hmem : k ∈ P.map key
      · rw [if_pos hmem, if_pos (hmk.mpr (Or.inl hmem)), hfk,
          if_neg (fun hc => hk hc.symm)]
        simp
      · rw [if_neg hmem, if_neg (fun hc => (hmk.mp hc).elim hmem hk)]

theorem groupFold_lookup (key : ρ → κ) :
    ∀ (xs : List ρ) (acc : List (κ × List ρ)) (P : List ρ),
      (∀ k, acc.lookup k =
        if k ∈ P.map key
        then some (P.filter fun r => decide (key r = k)) else none) →
      ∀ k, (xs.foldl (Laygo.groupStep key) acc).lookup k =
        if k ∈ (P ++ xs).map key
        then some ((P ++ xs).filter fun r => decide (key r = k)) else none := by
  intro xs
  induction xs with
  | nil =>
    intro acc P hinv k
    simpa using hinv k
  | cons v vs ih =>
    intro acc P hinv k
    rw [List.foldl_cons]
    have hnext := ih (Laygo.groupStep key acc v) (P ++ [v])
      (groupStep_lookup key acc P v hinv) k
    simpa [List.append_assoc] using hnext

/-- C8: for every input sequence of records, `groupBy(key)` emits, once the
upstream exhausts, a single mapping that sends each observed value of field
`key` to the ordered list of input records sharing that value (each group
preserving arrival order, i.e. the in-order filter of the input by that key),
and no other key is present; for input `[{k:x,v:1},{k:y,v:2},{k:x,v:3}]`
grouped by the `k` field the result is the single mapping
`{x:[{k:x,v:1},{k:x,v:3}], y:[{k:y,v:2}]}`. -/
theorem groupBy_single_mapping (key : ρ → κ) (l : List ρ) :
    ∃ m, Laygo.groupBy key l = [m] ∧
      (∀ k, m.lookup k =
        if k ∈ l.map key
        then some (l.filter fun r => decide (key r = k)) else none) ∧
      Laygo.groupBy (fun r : String × Int => r.1)
          [("x", 1), ("y", 2), ("x", 3)] =
        [[("x", [("x", 1), ("x", 3)]), ("y", [("y", 2)])]] := by
  refine ⟨l.foldl (Laygo.groupStep key) [], rfl, ?_, by decide⟩
  intro k
  have := groupFold_lookup key l [] [] (by intro k2; simp) k
  simpa using this

end ClaimC8

section ClaimC1

universe u

variable {α : Type u}

theorem evictFront_pos (B : List (α × Nat)) (h : ∀ e ∈ B, e.2 ≠ 0) :
    Fork.evictFront B = (B, 0) := by
  cases B with
  | nil => rfl
  | cons e tl =>
    obtain ⟨x, c⟩ := e
    have hc : ¬c = 0 := h (x, c) (List.mem_cons_self _ _)
    simp [Fork.evictFront, hc]

theorem evictFront_map_pos (l : List α) (c : Nat) (hc : c ≠ 0) :
    Fork.evictFront (l.map fun x => (x, c)) = (l.map fun x => (x, c), 0) := by
  refine evictFront_pos _ ?_
  intro e he
  obtain ⟨y, hy, rfl⟩ := List.mem_map.mp he
  simpa using hc

theorem drain_solo (rem : List α) :
    ∀ (p c fuel : Nat), rem.length ≤ fuel →
      Fork.drain fuel ⟨rem, p, [], c, 1⟩ c =
        (rem, ⟨[], p + rem.length, [], c + rem.length, 1⟩, c + rem.length) := by
  induction rem with
  | nil =>
    intro p c fuel _
    cases fuel with
    | zero => simp [Fork.drain]
    | succ f => simp [Fork.drain, Fork.pull, Fork.frontier]
  | cons x rest ih =>
    intro p c fuel hf
    simp only [List.length_cons] at hf
    cases fuel with
    | zero => omega
    | succ f =>
      have hp : Fork.pull (⟨x :: rest, p, [], c, 1⟩ : Fork.ForkState α) c =
          (some x, ⟨rest, p + 1, [], c + 1, 1⟩, c + 1) := by
        rw [Fork.pull, if_neg (by simp [Fork.frontier])]
        simp [Fork.readSlot, Fork.evictFront]
      rw [Fork.drain, hp]
      simp only [ih (p + 1) (c + 1) f (by omega)]
      have h1 : p + 1 + rest.length = p + (rest.length + 1) := by omega
      have h2 : c + 1 + rest.length = c + (rest.length + 1) := by omega
      simp [h1, h2]

theorem drain_last (k : Nat) (rem : List α) :
    ∀ (p c fuel : Nat), rem.length ≤ fuel →
      Fork.drain fuel ⟨[], p, rem.map (fun x => (x, 1)), c, k⟩ c =
        (rem, ⟨[], p, [], c + rem.length, k⟩, c + rem.length) := by
  induction rem with
  | nil =>
    intro p c fuel _
    cases fuel with
    | zero => simp [Fork.drain]
    | succ f => simp [Fork.drain, Fork.pull, Fork.frontier]
  | cons x rest ih =>
    intro p c fuel hf
    simp only [List.length_cons] at hf
    cases fuel with
    | zero => omega
    | succ f =>
      have hp : Fork.pull
          (⟨[], p, (x :: rest).map (fun y => (y, 1)), c, k⟩ : Fork.ForkState α)
          c = (some x, ⟨[], p, rest.map (fun y => (y, 1)), c + 1, k⟩, c + 1) := by
        rw [Fork.pull, if_pos (by simp [Fork.frontier])]
        simp [Fork.readSlot, Fork.evictFront,
          evictFront_map_pos rest 1 (by omega)]
      rw [Fork.drain, hp]
      simp only [ih p (c + 1) f (by omega)]
      have h2 : c + 1 + rest.length = c + (rest.length + 1) := by omega
      simp [h2]

theorem drain_first (k : Nat) (hk : 2 ≤ k) (rem : List α) :
    ∀ (done : List α) (p fuel : Nat), rem.length ≤ fuel →
      Fork.drain fuel
          ⟨rem, p, done.map (fun x => (x, k - 1)), 0, k⟩ done.length =
        (rem,
          ⟨[], p + rem.length, (done ++ rem).map (fun x => (x, k - 1)), 0, k⟩,
          done.length + rem.length) := by
  induction rem with
  | nil =>
    intro done p fuel _
    cases fuel with
    | zero => simp [Fork.drain]
    | succ f => simp [Fork.drain, Fork.pull, Fork.frontier]
  | cons x rest ih =>
    intro done p fuel hf
    simp only [List.length_cons] at hf
    cases fuel with
    | zero => omega
    | succ f =>
      have hbufpos : ∀ e ∈ (done.map (fun y => (y, k - 1)) ++ [(x, k - 1)]),
          e.2 ≠ 0 := by
        intro e he
        rcases List.mem_append.mp he with he | he
        · obtain ⟨y, _, rfl⟩ := List.mem_map.mp he
          simp
          omega
        · rw [List.mem_singleton.mp he]
          simp
          omega
      have hget : (List.map (fun y => (y, k - 1)) done ++
          [(x, k)])[done.length]? = some (x, k) := by
        rw [List.getElem?_append_right (by simp)]
        simp
      have hset : (List.map (fun y => (y, k - 1)) done ++ [(x, k)]).set
          done.length (x, k - 1) =
          List.map (fun y => (y, k - 1)) done ++ [(x, k - 1)] := by
        rw [List.set_append_right _ _ (by simp)]
        simp
      have hp : Fork.pull
          (⟨x :: rest, p, done.map (fun y => (y, k - 1)), 0, k⟩ :
            Fork.ForkState α) done.length =
          (some x,
            ⟨rest, p + 1,
              done.map (fun y => (y, k - 1)) ++ [(x, k - 1)], 0, k⟩,
            done.length + 1) := by
        rw [Fork.pull, if_neg (by simp [Fork.frontier])]
        simp [Fork.readSlot, hget, hset, evictFront_pos _ hbufpos]
      rw [Fork.drain, hp]
      have hres := ih (done ++ [x]) (p + 1) f (by omega)
      simp only [List.map_append, List.map_cons, List.map_nil,
        List.length_append, List.length_cons, List.length_nil,
        List.append_assoc, List.singleton_append, List.nil_append,
        Nat.zero_add, Nat.add_zero] at hres
      simp only [hres]
      have h1 : p + 1 + rest.length = p + (rest.length + 1) := by omega
      have h2 : done.length + 1 + rest.length =
          done.length + (rest.length + 1) := by omega
      simp [h1, h2]

theorem drain_mid (k c : Nat) (hc : 2 ≤ c) (rem : List α) :
    ∀ (done : List α) (p fuel : Nat), rem.length ≤ fuel →
      Fork.drain fuel
          ⟨[], p,
            done.map (fun x => (x, c - 1)) ++ rem.map (fun x => (x, c)),
            0, k⟩ done.length =
        (rem, ⟨[], p, (done ++ rem).map (fun x => (x, c - 1)), 0, k⟩,
          done.length + rem.length) := by
  induction rem with
  | nil =>
    intro done p fuel _
    cases fuel with
    | zero => simp [Fork.drain]
    | succ f => simp [Fork.drain, Fork.pull, Fork.frontier]
  | cons x rest ih =>
    intro done p fuel hf
    simp only [List.length_cons] at hf
    cases fuel with
    | zero => omega
    | succ f =>
      have hbufpos : ∀ e ∈ (done.map (fun y => (y, c - 1)) ++
          ((x, c - 1) :: rest.map (fun y => (y, c)))), e.2 ≠ 0 := by
        intro e he
        rcases List.mem_append.mp he with he | he
        · obtain ⟨y, _, rfl⟩ := List.mem_map.mp he
          simp
          omega
        · rcases List.mem_cons.mp he with he | he
          · rw [he]
            simp
            omega
          · obtain ⟨y, _, rfl⟩ := List.mem_map.mp he
            simp
            omega
      have hget : (List.map (fun y => (y, c - 1)) done ++
          ((x, c) :: List.map (fun y => (y, c)) rest))[done.length]? =
          some (x, c) := by
        rw [List.getElem?_append_right (by simp)]
        simp
      have hset : (List.map (fun y => (y, c - 1)) done ++
          ((x, c) :: List.map (fun y => (y, c)) rest)).set
          done.length (x, c - 1) =
          List.map (fun y => (y, c - 1)) done ++
            ((x, c - 1) :: List.map (fun y => (y, c)) rest) := by
        rw [List.set_append_right _ _ (by simp)]
        simp
      have hp : Fork.pull
          (⟨[], p,
            done.map (fun y => (y, c - 1)) ++
              ((x, c) :: rest.map (fun y => (y, c))), 0, k⟩ :
            Fork.ForkState α) done.length =
          (some x,
            ⟨[], p,
              done.map (fun y => (y, c - 1)) ++
                ((x, c - 1) :: rest.map (fun y => (y, c))), 0, k⟩,
            done.length + 1) := by
        rw [Fork.pull, if_pos (by simp [Fork.frontier])]
        simp [Fork.readSlot, hget, hset, evictFront_pos _ hbufpos]
      rw [Fork.drain]
      rw [show (⟨[], p,
            List.map (fun x => (x, c - 1)) done ++
              List.map (fun x => (x, c)) (x :: rest), 0, k⟩ :
          Fork.ForkState α) =
          ⟨[], p,
            done.map (fun y => (y, c - 1)) ++
              ((x, c) :: rest.map (fun y => (y, c))), 0, k⟩ by simp]
      rw [hp]
      have hres := ih (done ++ [x]) p f (by omega)
      simp only [List.map_append, List.map_cons, List.map_nil,
        List.length_append, List.length_cons, List.length_nil,
        List.append_assoc, List.singleton_append, List.nil_append,
        Nat.zero_add, Nat.add_zero] at hres
      simp only [hres]
      have h2 : done.length + 1 + rest.length =
          done.length + (rest.length + 1) := by omega
      simp [h2]

theorem drainLoop_counts (k : Nat) (l : List α) :
    ∀ j, 1 ≤ j → ∀ (p fuel : Nat), l.length ≤ fuel →
      Fork.drainLoop fuel j
          (⟨[], p, l.map (fun x => (x, j)), 0, k⟩ : Fork.ForkState α) =
        (List.replicate j l, p) := by
  intro j
  induction j with
  | zero =>
    intro h
    omega
  | succ j ihj =>
    intro _ p fuel hf
    cases j with
    | zero =>
      rw [Fork.drainLoop]
      have hd := drain_last k l p 0 fuel hf
      simp only [Nat.zero_add] at hd ⊢
      simp only [hd, Fork.drainLoop]
      simp
    | succ j' =>
      rw [Fork.drainLoop]
      have hd := drain_mid k (j' + 2) (by omega) l [] p fuel hf
      simp only [List.map_nil, List.nil_append, List.length_nil,
        Nat.zero_add, show j' + 2 - 1 = j' + 1 from rfl] at hd
      rw [show j' + 1 + 1 = j' + 2 from rfl]
      simp only [hd]
      rw [ihj (by omega) p fuel hf]
      simp [List.replicate_succ]

/-- C1: for any source sequence and any number `k ≥ 1` of branches, if
`fork()` creates the `k` branches before any of them begins consuming, then
draining each branch with `result()` independently returns the complete item
sequence of the source, in the source's original order, and the source is
pulled exactly once per item it ever yields (`l.length` pulls in total, not
`k * l.length`). -/
theorem fork_branches_replay (k : Nat) (hk : 1 ≤ k) (l : List α) :
    (Fork.drainAll k l).1 = List.replicate k l ∧
      (Fork.drainAll k l).2 = l.length := by
  cases k with
  | zero => omega
  | succ k' =>
    rw [Fork.drainAll, Fork.initState]
    cases k' with
    | zero =>
      rw [Fork.drainLoop]
      have hd := drain_solo l 0 0 (l.length + 1) (by omega)
      simp only [hd, Fork.drainLoop]
      simp
    | succ k'' =>
      rw [Fork.drainLoop,
        show k'' + 1 + 1 = k'' + 2 from rfl]
      have hd := drain_first (k'' + 2) (by omega) l [] 0 (l.length + 1)
        (by omega)
      simp only [List.map_nil, List.length_nil, Nat.zero_add,
        List.nil_append, show k'' + 2 - 1 = k'' + 1 from rfl] at hd
      simp only [hd]
      have hloop := drainLoop_counts (k'' + 2) l (k'' + 1) (by omega)
        l.length (l.length + 1) (by omega)
      rw [hloop]
      simp [List.replicate_succ]

/-- C1 witness: two branches forked before any consumption over the five-item
source `[1,2,3,4,5]`; each branch's `result()` is the full source in order
and the origin sequence is pulled five times in total (not ten). -/
theorem fork_branches_replay_witness :
    (1 ≤ 2) ∧
      (Fork.drainAll 2 ([1, 2, 3, 4, 5] : List Int)).1 =
        [[1, 2, 3, 4, 5], [1, 2, 3, 4, 5]] ∧
      (Fork.drainAll 2 ([1, 2, 3, 4, 5] : List Int)).2 = 5 := by
  have h := fork_branches_replay 2 (by decide) ([1, 2, 3, 4, 5] : List Int)
  exact ⟨by decide, by simpa using h.1, by simpa using h.2⟩

end ClaimC1

